import Mathlib

/-!
Verification development for `training/gather_data.py` of the aveta
repository.

The file shallow-embeds the pure core of the data-gathering pipeline:

* `weighted_iter` — the bucketed-count expander;
* `splitOnSep` / `pyStrip` / `read_file` — the sparse timeline reader
  (comma-separated lines, dict collapse, sort by key);
* `cmd_frame_iter` — the stream reconciler (merge-join of the frame and
  command timelines);
* `parseIntIndex` / `get_next_usable_integer_index` / `DataWriteHelper` —
  the label-bucket index logic;
* `main_result` / `program_exit` — the exit-code logic of `main` and the
  `__main__` block.

Python strings are modelled as `List Char`, Python `int` as `Int` (or `Nat`
where the source value is provably non-negative), iterators as `List`, and
the filesystem as explicit directory listings (`List (List Char)`).
Filesystem, video-decoding and image I/O effects are out of scope (the spec
treats them as external collaborators); only the values the source computes
from them are modelled.
-/

namespace Aveta

/-- Characters stripped by Python's `str.strip()`: space, tab, newline,
carriage return, vertical tab and form feed. -/
def isPyWhitespace (c : Char) : Bool :=
  c = ' ' || c = '\t' || c = '\n' || c = '\r' || c = Char.ofNat 11 || c = Char.ofNat 12

/-- Embedding of Python's `str.strip()` on a character list. -/
def pyStrip (cs : List Char) : List Char :=
  ((cs.dropWhile isPyWhitespace).reverse.dropWhile isPyWhitespace).reverse

/-- Embedding of Python's `str.split(sep)` for a one-character separator
`sep`: the fields between occurrences of `sep`, in order.  Like Python's
`split`, it always returns at least one (possibly empty) field. -/
def splitOnSep (sep : Char) : List Char → List (List Char)
  | [] => [[]]
  | c :: rest =>
    if c = sep then [] :: splitOnSep sep rest
    else
      match splitOnSep sep rest with
      | [] => [[c]]
      | f :: fs => (c :: f) :: fs

/-- `str.split` never produces an empty field list. -/
theorem splitOnSep_ne_nil (sep : Char) (cs : List Char) : splitOnSep sep cs ≠ [] := by
  induction cs with
  | nil => simp [splitOnSep]
  | cons c rest ih =>
    by_cases h : c = sep
    · simp [splitOnSep, h]
    · simp only [splitOnSep, h, if_false]
      cases hs : splitOnSep sep rest with
      | nil => simp
      | cons f fs => simp

/-- Embedding of `weighted_iter(buckets)` from `gather_data.py`:

    for key, count in buckets:
        for _ in xrange(count):
            yield key

`xrange(count)` iterates `max count 0` times for any `int` argument (and
never raises), so each pair contributes `count.toNat` copies of its key. -/
def weighted_iter {K : Type} (buckets : List (K × Int)) : List K :=
  buckets.flatMap (fun kc => List.replicate kc.2.toNat kc.1)

/-- Output length of the expander equals the sum of the (non-negative)
counts. -/
theorem weighted_iter_length {K : Type} (pairs : List (K × Int))
    (h : ∀ p ∈ pairs, 0 ≤ p.2) :
    (weighted_iter pairs).length = ((pairs.map Prod.snd).sum).toNat := by
  induction pairs with
  | nil => simp [weighted_iter]
  | cons p rest ih =>
    have hp : 0 ≤ p.2 := h p (by simp)
    have hrest : ∀ q ∈ rest, 0 ≤ q.2 := fun q hq => h q (by simp [hq])
    have hsum : 0 ≤ (rest.map Prod.snd).sum := by
      apply List.sum_nonneg
      intro x hx
      obtain ⟨q, hq, rfl⟩ := List.mem_map.mp hx
      exact hrest q hq
    have := ih hrest
    simp only [weighted_iter, List.flatMap_cons, List.length_append,
      List.length_replicate, List.map_cons, List.sum_cons] at *
    omega

/-- C4: the bucketed-count expander yields each key repeated exactly its
count many times, blocks in input order; a zero count contributes nothing;
the total output length is the sum of the counts (when they are all
non-negative); and `[(0,2),(1,3)]` expands to `[0,0,1,1,1]`. -/
theorem c4_weighted_iter_expansion {K : Type} (k : K) (c : Int)
    (rest pairs : List (K × Int)) :
    weighted_iter ((k, c) :: rest) = List.replicate c.toNat k ++ weighted_iter rest
    ∧ weighted_iter ((k, 0) :: rest) = weighted_iter rest
    ∧ ((∀ p ∈ pairs, 0 ≤ p.2) →
        (weighted_iter pairs).length = ((pairs.map Prod.snd).sum).toNat)
    ∧ weighted_iter [((0 : Nat), (2 : Int)), (1, 3)] = [0, 0, 1, 1, 1] := by
  refine ⟨by simp [weighted_iter, List.flatMap_cons], by simp [weighted_iter, List.flatMap_cons],
    weighted_iter_length pairs, by decide⟩

/-- Witness for C4 at the concrete input `[(0,2),(1,3)]`. -/
theorem c4_weighted_iter_expansion_witness :
    (weighted_iter [((0 : Nat), (2 : Int)), (1, 3)]).length
      = (([((0 : Nat), (2 : Int)), (1, 3)].map Prod.snd).sum).toNat :=
  (c4_weighted_iter_expansion 0 0 [] [((0 : Nat), (2 : Int)), (1, 3)]).2.2.1 (by decide)

/-- C9: a negative count behaves exactly like a zero count — the pair
contributes nothing and no error is raised (`xrange` of a negative `int` is
just empty, and the embedded function is total over all integer counts). -/
theorem c9_negative_counts {K : Type} (k : K) (c : Int) (rest : List (K × Int))
    (h : c < 0) :
    weighted_iter ((k, c) :: rest) = weighted_iter ((k, 0) :: rest)
    ∧ weighted_iter ((k, c) :: rest) = weighted_iter rest := by
  have hc : c.toNat = 0 := Int.toNat_of_nonpos (le_of_lt h)
  constructor <;> simp [weighted_iter, List.flatMap_cons, hc]

/-- Witness for C9 at the concrete count `-2`. -/
theorem c9_negative_counts_witness :
    weighted_iter [((3 : Nat), (-2 : Int))] = weighted_iter ([] : List (Nat × Int)) :=
  (c9_negative_counts 3 (-2) [] (by decide)).2

/-- Embedding of `_cmd_frame_iter(frames, cmds)` from `gather_data.py`, the
stream reconciler.  The source is a Python 2 generator:

    read_frame, read_cmd = True, True
    while True:
        if read_frame: frame_time, frame = _next_frame(frames)
        if read_cmd:   cmd_time, cmd, left_speed, right_speed = _next_cmd(cmds)
        if cmd_time < frame_time:
            read_cmd, read_frame = True, False
            continue
        elif cmd_time > frame_time:
            read_cmd, read_frame = False, True
            yield frame, None, left_speed, right_speed
        else:
            read_frame, read_cmd = True, True
            yield frame, cmd, left_speed, right_speed
    for _, frame in frames:            # dead code: the while-loop never breaks
        yield frame, None, left_speed, right_speed

The embedding keeps the pending element of each stream as the head of the
corresponding list; a `next` on an exhausted stream raises `StopIteration`,
which in Python 2 terminates the generator — hence both base cases return
`[]` (in particular the trailing `for` loop is unreachable and a pending
frame is lost when the command stream runs out).  Tick/speed parsing inside
`_next_frame`/`_next_cmd` (`int(float(t))`, `float(l)`, `float(r)`) is
abstracted: the streams carry already-parsed ticks (`Int`) and the command
label and speed values are opaque type parameters, since the merge never
computes with them. -/
def cmd_frame_iter {F C S : Type} :
    List (Int × F) → List (Int × C × S × S) → List (F × Option C × S × S)
  | [], _ => []
  | _ :: _, [] => []
  | (ft, fr) :: fs, (ct, c, l, r) :: cs =>
    if ct < ft then cmd_frame_iter ((ft, fr) :: fs) cs
    else if ct > ft then (fr, none, l, r) :: cmd_frame_iter fs ((ct, c, l, r) :: cs)
    else (fr, some c, l, r) :: cmd_frame_iter fs cs
  termination_by frames cmds => frames.length + cmds.length
  decreasing_by all_goals (simp; try omega)

/-- A stale command (`ct < ft`) is discarded and only the command stream
advances. -/
theorem cmd_frame_iter_drop {F C S : Type} (ft ct : Int) (fr : F) (c : C) (l r : S)
    (fs : List (Int × F)) (cs : List (Int × C × S × S)) (h : ct < ft) :
    cmd_frame_iter ((ft, fr) :: fs) ((ct, c, l, r) :: cs)
      = cmd_frame_iter ((ft, fr) :: fs) cs := by
  rw [cmd_frame_iter]
  simp [h]

/-- When the pending command is ahead (`ct > ft`) the frame is emitted with
no command and the pending command's speed values, and only the frame
stream advances. -/
theorem cmd_frame_iter_ahead {F C S : Type} (ft ct : Int) (fr : F) (c : C) (l r : S)
    (fs : List (Int × F)) (cs : List (Int × C × S × S)) (h : ft < ct) :
    cmd_frame_iter ((ft, fr) :: fs) ((ct, c, l, r) :: cs)
      = (fr, none, l, r) :: cmd_frame_iter fs ((ct, c, l, r) :: cs) := by
  rw [cmd_frame_iter]
  simp [h, not_lt_of_gt h]

/-- When the ticks match the sample is emitted with the command and both
streams advance. -/
theorem cmd_frame_iter_match {F C S : Type} (ft ct : Int) (fr : F) (c : C) (l r : S)
    (fs : List (Int × F)) (cs : List (Int × C × S × S)) (h : ct = ft) :
    cmd_frame_iter ((ft, fr) :: fs) ((ct, c, l, r) :: cs)
      = (fr, some c, l, r) :: cmd_frame_iter fs cs := by
  subst h
  rw [cmd_frame_iter]
  simp

/-- An exhausted frame stream ends the reconciliation. -/
theorem cmd_frame_iter_nil_frames {F C S : Type} (cs : List (Int × C × S × S)) :
    cmd_frame_iter ([] : List (Int × F)) cs = [] := by
  rw [cmd_frame_iter]

/-- An exhausted command stream also ends the reconciliation (the pending
frame is lost). -/
theorem cmd_frame_iter_nil_cmds {F C S : Type} (f : Int × F) (fs : List (Int × F)) :
    cmd_frame_iter (f :: fs) ([] : List (Int × C × S × S)) = [] := by
  rw [cmd_frame_iter]

/-- C1 counterexample: on frame ticks `[0,0,1,2]` (frames numbered
`0,1,2,3`) and command ticks `[(0,"X",1,2),(2,"Y",3,4)]` the reconciler
emits the *pending* command's telemetry `(3,4)` for the command-less frames
at ticks 0 and 1, not the last-seen telemetry `(1,2)` the claim predicts,
so the claimed output list is not the code's output. -/
theorem c1_last_seen_telemetry_counterexample :
    cmd_frame_iter [((0 : Int), (0 : Nat)), (0, 1), (1, 2), (2, 3)]
        [((0 : Int), "X", (1 : Int), 2), (2, "Y", 3, 4)]
      = [(0, some "X", 1, 2), (1, none, 3, 4), (2, none, 3, 4), (3, some "Y", 3, 4)]
    ∧ cmd_frame_iter [((0 : Int), (0 : Nat)), (0, 1), (1, 2), (2, 3)]
        [((0 : Int), "X", (1 : Int), 2), (2, "Y", 3, 4)]
      ≠ [(0, some "X", 1, 2), (1, none, 1, 2), (2, none, 1, 2), (3, some "Y", 3, 4)] := by
  have e : cmd_frame_iter [((0 : Int), (0 : Nat)), (0, 1), (1, 2), (2, 3)]
      [((0 : Int), "X", (1 : Int), 2), (2, "Y", 3, 4)]
      = [(0, some "X", 1, 2), (1, none, 3, 4), (2, none, 3, 4), (3, some "Y", 3, 4)] := by
    rw [cmd_frame_iter_match _ _ _ _ _ _ _ _ rfl,
        cmd_frame_iter_ahead _ _ _ _ _ _ _ _ (by norm_num),
        cmd_frame_iter_ahead _ _ _ _ _ _ _ _ (by norm_num),
        cmd_frame_iter_match _ _ _ _ _ _ _ _ rfl,
        cmd_frame_iter_nil_frames]
  refine ⟨e, ?_⟩
  rw [e]
  decide

/-- C1 (amended): the reconciler is a three-way merge-join — a stale
command (`ct < ft`) is discarded advancing only the command stream; when
`ct > ft` the frame is emitted with `command = None` and the *pending*
(next) command's telemetry values, advancing only the frame stream; when
`ct = ft` the matched sample is emitted and both streams advance.  On frame
ticks `[0,0,1,2]` and command ticks `[(0,"X",1,2),(2,"Y",3,4)]` the output
is `[(f0,"X",1,2), (f1,None,3,4), (f2,None,3,4), (f3,"Y",3,4)]`. -/
theorem c1_merge_join_amended {F C S : Type} (ft ct : Int) (fr : F) (c : C) (l r : S)
    (fs : List (Int × F)) (cs : List (Int × C × S × S)) :
    (ct < ft → cmd_frame_iter ((ft, fr) :: fs) ((ct, c, l, r) :: cs)
        = cmd_frame_iter ((ft, fr) :: fs) cs)
    ∧ (ft < ct → cmd_frame_iter ((ft, fr) :: fs) ((ct, c, l, r) :: cs)
        = (fr, none, l, r) :: cmd_frame_iter fs ((ct, c, l, r) :: cs))
    ∧ (ct = ft → cmd_frame_iter ((ft, fr) :: fs) ((ct, c, l, r) :: cs)
        = (fr, some c, l, r) :: cmd_frame_iter fs cs)
    ∧ cmd_frame_iter [((0 : Int), (0 : Nat)), (0, 1), (1, 2), (2, 3)]
        [((0 : Int), "X", (1 : Int), 2), (2, "Y", 3, 4)]
      = [(0, some "X", 1, 2), (1, none, 3, 4), (2, none, 3, 4), (3, some "Y", 3, 4)] := by
  refine ⟨cmd_frame_iter_drop ft ct fr c l r fs cs,
    cmd_frame_iter_ahead ft ct fr c l r fs cs,
    cmd_frame_iter_match ft ct fr c l r fs cs, ?_⟩
  rw [cmd_frame_iter_match _ _ _ _ _ _ _ _ rfl,
      cmd_frame_iter_ahead _ _ _ _ _ _ _ _ (by norm_num),
      cmd_frame_iter_ahead _ _ _ _ _ _ _ _ (by norm_num),
      cmd_frame_iter_match _ _ _ _ _ _ _ _ rfl,
      cmd_frame_iter_nil_frames]

/-- Witness for C1 (amended) at a concrete command-ahead input. -/
theorem c1_merge_join_amended_witness :
    cmd_frame_iter [((0 : Int), (7 : Nat))] [((1 : Int), "c", (5 : Int), 6)]
      = [((7 : Nat), (none : Option String), (5 : Int), 6)] := by
  have h := (@c1_merge_join_amended Nat String Int 0 1 7 "c" 5 6 [] []).2.1 (by norm_num)
  rw [h, cmd_frame_iter_nil_frames]

/-- C2 (failing input): with frame ticks `[0,1]` and the single command
`(0,"X",1,2)` the command stream is exhausted after the first match; the
`next` call on it then terminates the generator, dropping the frame at tick
1 (the post-loop flush over remaining frames in the source is unreachable).
The output has length 1, not the frame-stream length 2 the claim requires. -/
theorem c2_frame_dropped_on_command_exhaustion :
    cmd_frame_iter [((0 : Int), (0 : Nat)), (1, 1)] [((0 : Int), "X", (1 : Int), 2)]
      = [(0, some "X", 1, 2)]
    ∧ (cmd_frame_iter [((0 : Int), (0 : Nat)), (1, 1)]
        [((0 : Int), "X", (1 : Int), 2)]).length
      ≠ ([((0 : Int), (0 : Nat)), (1, 1)]).length := by
  have e : cmd_frame_iter [((0 : Int), (0 : Nat)), (1, 1)]
      [((0 : Int), "X", (1 : Int), 2)] = [(0, some "X", 1, 2)] := by
    rw [cmd_frame_iter_match _ _ _ _ _ _ _ _ rfl, cmd_frame_iter_nil_cmds]
  refine ⟨e, ?_⟩
  rw [e]
  decide

/-- Lexicographic comparison of Python 2 byte strings (`str.__lt__`):
character by character by code point; a proper prefix is smaller. -/
def strLt : List Char → List Char → Bool
  | [], [] => false
  | [], _ :: _ => true
  | _ :: _, [] => false
  | a :: as, b :: bs =>
    if a.toNat < b.toNat then true
    else if b.toNat < a.toNat then false
    else strLt as bs

/-- Unfolding of `strLt` on two non-empty strings. -/
theorem strLt_cons (a b : Char) (as bs : List Char) :
    strLt (a :: as) (b :: bs) = true
      ↔ (a.toNat < b.toNat ∨ (a.toNat = b.toNat ∧ strLt as bs = true)) := by
  simp only [strLt]
  split_ifs with h1 h2
  · simp [h1]
  · simp only [false_iff]
    rintro (h | ⟨h, -⟩) <;> omega
  · have heq : a.toNat = b.toNat := by omega
    simp [heq, h1]

/-- String comparison is irreflexive. -/
theorem strLt_irrefl (a : List Char) : strLt a a = false := by
  induction a with
  | nil => rfl
  | cons c cs ih => simp [strLt, ih]

/-- String comparison is transitive. -/
theorem strLt_trans : ∀ (a b c : List Char),
    strLt a b = true → strLt b c = true → strLt a c = true := by
  intro a
  induction a with
  | nil =>
    intro b c hab hbc
    cases c with
    | nil =>
      cases b with
      | nil => simp [strLt] at hab
      | cons b0 bs => simp [strLt] at hbc
    | cons c0 cs => simp [strLt]
  | cons a0 as ih =>
    intro b c hab hbc
    cases b with
    | nil => simp [strLt] at hab
    | cons b0 bs =>
      cases c with
      | nil => simp [strLt] at hbc
      | cons c0 cs =>
        rw [strLt_cons] at hab hbc ⊢
        rcases hab with h | ⟨h, h'⟩ <;> rcases hbc with g | ⟨g, g'⟩
        · exact Or.inl (by omega)
        · exact Or.inl (by omega)
        · exact Or.inl (by omega)
        · exact Or.inr ⟨by omega, ih bs cs h' g'⟩

/-- String comparison is asymmetric. -/
theorem strLt_asymm (a b : List Char) (h : strLt a b = true) : strLt b a = false := by
  by_contra hc
  have hba : strLt b a = true := by
    cases hb : strLt b a with
    | false => exact absurd hb hc
    | true => rfl
  have := strLt_trans a b a h hba
  rw [strLt_irrefl] at this
  exact Bool.false_ne_true this

/-- A character is recovered from its code point. -/
theorem char_eq_of_toNat_eq {a b : Char} (h : a.toNat = b.toNat) : a = b := by
  have ha := Char.ofNat_toNat a
  rw [h, Char.ofNat_toNat] at ha
  exact ha.symm

/-- Any two strings are equal or comparable. -/
theorem strLt_trichotomy (a : List Char) :
    ∀ (b : List Char), a = b ∨ strLt a b = true ∨ strLt b a = true := by
  induction a with
  | nil =>
    intro b
    cases b with
    | nil => exact Or.inl rfl
    | cons b0 bs => exact Or.inr (Or.inl (by simp [strLt]))
  | cons a0 as ih =>
    intro b
    cases b with
    | nil => exact Or.inr (Or.inr (by simp [strLt]))
    | cons b0 bs =>
      rcases Nat.lt_trichotomy a0.toNat b0.toNat with h | h | h
      · exact Or.inr (Or.inl ((strLt_cons _ _ _ _).mpr (Or.inl h)))
      · rcases ih bs with h' | h' | h'
        · exact Or.inl (by rw [char_eq_of_toNat_eq h, h'])
        · exact Or.inr (Or.inl ((strLt_cons _ _ _ _).mpr (Or.inr ⟨h, h'⟩)))
        · exact Or.inr (Or.inr ((strLt_cons _ _ _ _).mpr (Or.inr ⟨h.symm, h'⟩)))
      · exact Or.inr (Or.inr ((strLt_cons _ _ _ _).mpr (Or.inl h)))

/-- Processing of one line of `_read_file`: strip it, split it on commas,
take the first field as the key and the remaining fields as the values.
`none` models the `IndexError` the source's `split_line[0]` would raise on
an empty field list (provably unreachable: `split` always yields a field). -/
def read_file_line (line : List Char) : Option (List Char × List (List Char)) :=
  match splitOnSep ',' (pyStrip line) with
  | [] => none
  | key :: vals => some (key, vals)

/-- C7: every input line has at least one field (`str.split` never returns
fewer), so the "fewer than 1 field" malformed-line condition is vacuous and
per-line field splitting never raises. -/
theorem c7_line_splitting_total (line : List Char) :
    1 ≤ (splitOnSep ',' (pyStrip line)).length
    ∧ ∃ kv, read_file_line line = some kv := by
  have h := splitOnSep_ne_nil ',' (pyStrip line)
  constructor
  · cases hs : splitOnSep ',' (pyStrip line) with
    | nil => exact absurd hs h
    | cons a l => simp
  · cases hs : splitOnSep ',' (pyStrip line) with
    | nil => exact absurd hs h
    | cons a l => exact ⟨(a, l), by rw [read_file_line, hs]⟩

/-- Key of a (stripped) comma-separated line: its first field. -/
def lineKey (line : List Char) : List Char :=
  (splitOnSep ',' (pyStrip line)).headD []

/-- Value fields of a (stripped) comma-separated line: the fields after the
first. -/
def lineVals (line : List Char) : List (List Char) :=
  (splitOnSep ',' (pyStrip line)).tail

/-- Embedding of a Python dict assignment `d[k] = v` on an association
list: replace the value at an existing key, otherwise add the binding. -/
def dictInsert {V : Type} : List (List Char × V) → List Char → V → List (List Char × V)
  | [], k, v => [(k, v)]
  | (k', v') :: rest, k, v =>
    if k' = k then (k', v) :: rest else (k', v') :: dictInsert rest k v

/-- Association-list lookup: the value the dict holds at `k`. -/
def lookupKey {V : Type} : List (List Char × V) → List Char → Option V
  | [], _ => none
  | (k', v') :: rest, k => if k' = k then some v' else lookupKey rest k

/-- One iteration of the reading loop of `_read_file`:

    split_line = line.strip().split(",")
    key = split_line[0]
    vals = tuple(split_line[1:])
    retmap[key] = value_mapper(vals)

The `[]` branch is unreachable (`split` never yields an empty list). -/
def readLineStep {V : Type} (value_mapper : List (List Char) → V)
    (m : List (List Char × V)) (line : List Char) : List (List Char × V) :=
  match splitOnSep ',' (pyStrip line) with
  | [] => m
  | key :: vals => dictInsert m key (value_mapper vals)

/-- The dict `retmap` built by `_read_file`'s loop: later lines overwrite
earlier bindings of the same key. -/
def collapseLines {V : Type} (value_mapper : List (List Char) → V)
    (lines : List (List Char)) : List (List Char × V) :=
  lines.foldl (readLineStep value_mapper) []

/-- Insertion into a key-sorted association list.  Python's `sorted(...,
key=lambda t: t[0])` is modelled by insertion sort: the dict's keys are
pairwise distinct, so the ascending permutation is unique and any correct
sort produces it. -/
def insertSorted {V : Type} (x : List Char × V) :
    List (List Char × V) → List (List Char × V)
  | [] => [x]
  | y :: ys => if strLt x.1 y.1 then x :: y :: ys else y :: insertSorted x ys

/-- Sort an association list ascending by its string keys. -/
def sortByKey {V : Type} (m : List (List Char × V)) : List (List Char × V) :=
  m.foldr insertSorted []

/-- Embedding of `_read_file(filename, value_mapper)`: collapse the lines
into a dict (the last occurrence of a key wins) and yield the
`(key, mapped values)` pairs sorted ascending by the key *string*
(`sorted(retmap.items(), key=lambda t: t[0])` compares keys as Python
strings, not as numbers). -/
def read_file {V : Type} (value_mapper : List (List Char) → V)
    (lines : List (List Char)) : List (List Char × V) :=
  sortByKey (collapseLines value_mapper lines)

/-- Specification-side reading of "only the last occurrence (by file order)
is retained": scan the reversed line list for the first line keyed `k` and
return its mapped value fields. -/
def lastOccValue {V : Type} (value_mapper : List (List Char) → V)
    (lines : List (List Char)) (k : List Char) : Option V :=
  (lines.reverse.find? (fun line => lineKey line == k)).map
    (fun line => value_mapper (lineVals line))

/-- Numeric value of a digit string (the tick an integer key string
denotes). -/
def digitsVal (ds : List Char) : Nat :=
  ds.foldl (fun a c => a * 10 + (c.toNat - 48)) 0

/-- A Boolean that is not true is false. -/
theorem bool_false_of_not_true {b : Bool} (h : ¬ b = true) : b = false := by
  cases b
  · rfl
  · exact absurd rfl h

/-- Splitting a line always produces its key field followed by its value
fields. -/
theorem splitOnSep_eq_key_vals (line : List Char) :
    splitOnSep ',' (pyStrip line) = lineKey line :: lineVals line := by
  have h := splitOnSep_ne_nil ',' (pyStrip line)
  cases hs : splitOnSep ',' (pyStrip line) with
  | nil => exact absurd hs h
  | cons key vals => rw [lineKey, lineVals, hs]; rfl

/-- One reading-loop iteration is a dict assignment at the line's key. -/
theorem readLineStep_eq {V : Type} (value_mapper : List (List Char) → V)
    (m : List (List Char × V)) (line : List Char) :
    readLineStep value_mapper m line
      = dictInsert m (lineKey line) (value_mapper (lineVals line)) := by
  rw [readLineStep, splitOnSep_eq_key_vals]

/-- Looking up the key just inserted yields the inserted value. -/
theorem lookupKey_dictInsert_self {V : Type} (m : List (List Char × V))
    (k : List Char) (v : V) : lookupKey (dictInsert m k v) k = some v := by
  induction m with
  | nil => simp [dictInsert, lookupKey]
  | cons p rest ih =>
    obtain ⟨k', v'⟩ := p
    by_cases h : k' = k
    · simp [dictInsert, lookupKey, h]
    · simp [dictInsert, lookupKey, h, ih]

/-- Looking up any other key is unaffected by an insertion. -/
theorem lookupKey_dictInsert_other {V : Type} (m : List (List Char × V))
    (k k' : List Char) (v : V) (h : k' ≠ k) :
    lookupKey (dictInsert m k v) k' = lookupKey m k' := by
  induction m with
  | nil =>
    simp only [dictInsert, lookupKey]
    rw [if_neg (fun hh => h hh.symm)]
  | cons p rest ih =>
    obtain ⟨k0, v0⟩ := p
    by_cases h0 : k0 = k
    · subst h0
      simp only [dictInsert, if_true]
      simp only [lookupKey]
      rw [if_neg (fun hh => h hh.symm), if_neg (fun hh => h hh.symm)]
    · simp [dictInsert, lookupKey, h0, ih]

/-- Keys after an insertion are among the old keys and the inserted key. -/
theorem mem_keys_dictInsert {V : Type} (k : List Char) (v : V) (a : List Char) :
    ∀ (m : List (List Char × V)), a ∈ (dictInsert m k v).map Prod.fst →
      a ∈ m.map Prod.fst ∨ a = k := by
  intro m
  induction m with
  | nil =>
    intro ha
    simp only [dictInsert, List.map_cons, List.map_nil, List.mem_singleton] at ha
    exact Or.inr ha
  | cons p rest ih =>
    obtain ⟨k0, v0⟩ := p
    intro ha
    by_cases h0 : k0 = k
    · subst h0
      simp only [dictInsert, if_true, List.map_cons] at ha
      exact Or.inl ha
    · simp only [dictInsert, if_neg h0, List.map_cons, List.mem_cons] at ha
      rcases ha with rfl | ha
      · exact Or.inl (List.mem_map_of_mem Prod.fst (List.mem_cons_self _ _))
      · rcases ih ha with h | h
        · exact Or.inl (by simp only [List.map_cons, List.mem_cons]; exact Or.inr h)
        · exact Or.inr h

/-- Dict assignments preserve distinctness of the keys. -/
theorem nodup_keys_dictInsert {V : Type} (k : List Char) (v : V) :
    ∀ (m : List (List Char × V)), (m.map Prod.fst).Nodup →
      ((dictInsert m k v).map Prod.fst).Nodup := by
  intro m
  induction m with
  | nil => intro _; simp [dictInsert]
  | cons p rest ih =>
    obtain ⟨k0, v0⟩ := p
    intro hnd
    simp only [List.map_cons, List.nodup_cons] at hnd
    obtain ⟨hk0, hrest⟩ := hnd
    by_cases h0 : k0 = k
    · subst h0
      simp only [dictInsert, if_true, List.map_cons, List.nodup_cons]
      exact ⟨hk0, hrest⟩
    · simp only [dictInsert, if_neg h0, List.map_cons, List.nodup_cons]
      refine ⟨?_, ih hrest⟩
      intro hmem
      rcases mem_keys_dictInsert k v k0 rest hmem with h | h
      · exact hk0 h
      · exact h0 h

/-- The dict built by `_read_file` has pairwise-distinct keys. -/
theorem nodup_keys_collapseLines {V : Type} (value_mapper : List (List Char) → V)
    (lines : List (List Char)) :
    ((collapseLines value_mapper lines).map Prod.fst).Nodup := by
  rw [collapseLines]
  suffices h : ∀ (ls : List (List Char)) (m : List (List Char × V)),
      (m.map Prod.fst).Nodup →
      ((ls.foldl (readLineStep value_mapper) m).map Prod.fst).Nodup from
    h lines [] (by simp)
  intro ls
  induction ls with
  | nil => intro m hm; simpa using hm
  | cons line rest ih =>
    intro m hm
    rw [List.foldl_cons, readLineStep_eq]
    exact ih _ (nodup_keys_dictInsert _ _ m hm)

/-- The dict built by the reading loop holds, at each key, the mapped
values of the key's last occurrence in file order (and is otherwise
untouched). -/
theorem lookupKey_foldl {V : Type} (value_mapper : List (List Char) → V) :
    ∀ (lines : List (List Char)) (m : List (List Char × V)) (k : List Char),
      lookupKey (lines.foldl (readLineStep value_mapper) m) k
        = match lines.reverse.find? (fun line => lineKey line == k) with
          | some line => some (value_mapper (lineVals line))
          | none => lookupKey m k := by
  intro lines
  induction lines with
  | nil => intro m k; simp
  | cons line ls ih =>
    intro m k
    rw [List.foldl_cons, ih, List.reverse_cons, List.find?_append]
    cases hf : ls.reverse.find? (fun l => lineKey l == k) with
    | some l => simp [Option.or]
    | none =>
      by_cases hk : lineKey line = k
      · have hpa : (lineKey line == k) = true := beq_iff_eq.mpr hk
        simp only [Option.or, List.find?_cons, hpa, List.find?_nil, hk,
          beq_self_eq_true, readLineStep_eq, lookupKey_dictInsert_self]
      · have hpa : (lineKey line == k) = false := by
          simp [beq_iff_eq, hk]
        simp only [Option.or, List.find?_cons, hpa, List.find?_nil, readLineStep_eq]
        rw [lookupKey_dictInsert_other _ _ _ _ (fun hh => hk hh.symm)]

/-- In an association list with distinct keys, membership is exactly a
successful lookup. -/
theorem lookupKey_eq_some_iff_mem {V : Type} :
    ∀ (m : List (List Char × V)), (m.map Prod.fst).Nodup →
      ∀ (k : List Char) (v : V), (lookupKey m k = some v ↔ (k, v) ∈ m) := by
  intro m
  induction m with
  | nil => intro _ k v; simp [lookupKey]
  | cons p rest ih =>
    obtain ⟨k0, v0⟩ := p
    intro hnd k v
    simp only [List.map_cons, List.nodup_cons] at hnd
    obtain ⟨hk0, hrest⟩ := hnd
    by_cases h : k0 = k
    · subst h
      simp only [lookupKey, if_true, List.mem_cons]
      constructor
      · intro h'
        injection h' with h'
        exact Or.inl (by rw [h'])
      · rintro (h' | h')
        · have hv : v = v0 := (Prod.mk.injEq _ _ _ _ |>.mp h').2
          rw [hv]
        · exact absurd (List.mem_map_of_mem Prod.fst h') hk0
    · simp only [lookupKey, if_neg h, List.mem_cons]
      rw [ih hrest k v]
      constructor
      · exact Or.inr
      · rintro (h' | h')
        · exact absurd (congrArg Prod.fst h').symm h
        · exact h'

/-- Inserting into a sorted list permutes consing. -/
theorem insertSorted_perm {V : Type} (x : List Char × V) :
    ∀ (l : List (List Char × V)), (insertSorted x l).Perm (x :: l) := by
  intro l
  induction l with
  | nil => exact List.Perm.refl _
  | cons y ys ih =>
    by_cases h : strLt x.1 y.1 = true
    · simp only [insertSorted, if_pos h]
      exact List.Perm.refl _
    · simp only [insertSorted, if_neg h]
      exact (ih.cons y).trans (List.Perm.swap x y ys)

/-- Sorting permutes the association list. -/
theorem sortByKey_perm {V : Type} :
    ∀ (m : List (List Char × V)), (sortByKey m).Perm m := by
  intro m
  induction m with
  | nil => exact List.Perm.refl _
  | cons x rest ih =>
    exact (insertSorted_perm x (sortByKey rest)).trans (ih.cons x)

/-- Insertion preserves weak sortedness by key. -/
theorem pairwise_insertSorted {V : Type} (x : List Char × V) :
    ∀ (l : List (List Char × V)),
      l.Pairwise (fun p q => strLt q.1 p.1 = false) →
      (insertSorted x l).Pairwise (fun p q => strLt q.1 p.1 = false) := by
  intro l
  induction l with
  | nil => intro _; simp [insertSorted]
  | cons y ys ih =>
    intro hp
    simp only [List.pairwise_cons] at hp
    obtain ⟨hy, hys⟩ := hp
    by_cases h : strLt x.1 y.1 = true
    · simp only [insertSorted, if_pos h, List.pairwise_cons]
      refine ⟨?_, hy, hys⟩
      intro z hz
      rcases List.mem_cons.mp hz with rfl | hz'
      · exact strLt_asymm _ _ h
      · by_contra hc
        have hzx : strLt z.1 x.1 = true := by
          cases hzx : strLt z.1 x.1 with
          | false => exact absurd hzx hc
          | true => rfl
        have hzy := strLt_trans _ _ _ hzx h
        rw [hy z hz'] at hzy
        exact Bool.false_ne_true hzy
    · have hf : strLt x.1 y.1 = false := bool_false_of_not_true h
      simp only [insertSorted, if_neg h, List.pairwise_cons]
      refine ⟨?_, ih hys⟩
      intro z hz
      rcases List.mem_cons.mp ((insertSorted_perm x ys).mem_iff.mp hz) with rfl | hz'
      · exact hf
      · exact hy z hz'

/-- The sorted association list is weakly sorted by key. -/
theorem pairwise_sortByKey {V : Type} :
    ∀ (m : List (List Char × V)),
      (sortByKey m).Pairwise (fun p q => strLt q.1 p.1 = false) := by
  intro m
  induction m with
  | nil => simp [sortByKey]
  | cons x rest ih => exact pairwise_insertSorted x (sortByKey rest) ih

/-- The reader's output is strictly ascending in the string order of its
keys. -/
theorem pairwise_strLt_read_file {V : Type} (value_mapper : List (List Char) → V)
    (lines : List (List Char)) :
    (read_file value_mapper lines).Pairwise (fun p q => strLt p.1 q.1 = true) := by
  have hperm := sortByKey_perm (collapseLines value_mapper lines)
  have hnd : ((read_file value_mapper lines).map Prod.fst).Nodup :=
    ((hperm.map Prod.fst).nodup_iff).mpr (nodup_keys_collapseLines value_mapper lines)
  have hle : (read_file value_mapper lines).Pairwise
      (fun p q => strLt q.1 p.1 = false) :=
    pairwise_sortByKey (collapseLines value_mapper lines)
  have hne : (read_file value_mapper lines).Pairwise (fun p q => p.1 ≠ q.1) :=
    List.pairwise_map.mp hnd
  refine (hle.and hne).imp ?_
  intro a b hab
  obtain ⟨h1, h2⟩ := hab
  rcases strLt_trichotomy a.1 b.1 with he | h | h
  · exact absurd he h2
  · exact h
  · rw [h1] at h
    exact absurd h Bool.false_ne_true

/-- Membership in the reader's output is exactly "the value of the key's
last occurrence in file order". -/
theorem mem_read_file_iff {V : Type} (value_mapper : List (List Char) → V)
    (lines : List (List Char)) (k : List Char) (v : V) :
    (k, v) ∈ read_file value_mapper lines
      ↔ lastOccValue value_mapper lines k = some v := by
  have hperm := sortByKey_perm (collapseLines value_mapper lines)
  have h1 : (k, v) ∈ read_file value_mapper lines
      ↔ (k, v) ∈ collapseLines value_mapper lines := hperm.mem_iff
  rw [h1, ← lookupKey_eq_some_iff_mem _ (nodup_keys_collapseLines value_mapper lines) k v,
    collapseLines, lookupKey_foldl, lastOccValue]
  cases hf : lines.reverse.find? (fun line => lineKey line == k) with
  | none => simp [lookupKey]
  | some l => simp

/-- C3 counterexample: on the input lines `["10,a","9,b"]` the reader
orders by the key *string*, so the tick-10 entry precedes the tick-9 entry
and the output is not strictly ascending by numeric tick. -/
theorem c3_numeric_order_counterexample :
    read_file (fun vs => vs) ["10,a".data, "9,b".data]
      = [("10".data, ["a".data]), ("9".data, ["b".data])]
    ∧ ¬ List.Pairwise (fun p q => digitsVal p.1 < digitsVal q.1)
        (read_file (fun vs => vs) ["10,a".data, "9,b".data]) := by
  have e : read_file (fun vs => vs) ["10,a".data, "9,b".data]
      = [("10".data, ["a".data]), ("9".data, ["b".data])] := by decide
  refine ⟨e, ?_⟩
  intro h
  rw [e] at h
  have h10 := (List.pairwise_cons.mp h).1 (("9".data, ["b".data])) (by simp)
  have e10 : digitsVal ("10".data) = 10 := by decide
  have e9 : digitsVal ("9".data) = 9 := by decide
  rw [e10, e9] at h10
  omega

/-- C3 (amended): for every input, the reader yields one pair per distinct
key, sorted strictly ascending in the lexicographic (string) order of the
keys — which agrees with numeric tick order on equal-length digit keys,
such as the single-digit example — and each key carries the mapped values
of its last occurrence in file order; `["5,a","1,b","5,c"]` yields
`[("1",("b",)),("5",("c",))]`. -/
theorem c3_read_file_amended {V : Type} (value_mapper : List (List Char) → V)
    (lines : List (List Char)) :
    (read_file value_mapper lines).Pairwise (fun p q => strLt p.1 q.1 = true)
    ∧ (∀ (k : List Char) (v : V),
        (k, v) ∈ read_file value_mapper lines
          ↔ lastOccValue value_mapper lines k = some v)
    ∧ read_file (fun vs => vs) ["5,a".data, "1,b".data, "5,c".data]
      = [("1".data, ["b".data]), ("5".data, ["c".data])] :=
  ⟨pairwise_strLt_read_file value_mapper lines,
   fun k v => mem_read_file_iff value_mapper lines k v,
   by decide⟩

/-- Witness for C3 (amended) at the concrete example input. -/
theorem c3_read_file_amended_witness :
    ("1".data, ["b".data])
      ∈ read_file (fun vs => vs) ["5,a".data, "1,b".data, "5,c".data] :=
  ((c3_read_file_amended (fun vs => vs) ["5,a".data, "1,b".data, "5,c".data]).2.1
    ("1".data) ["b".data]).mpr (by decide)

/-- The extension string interpolated into the bucket-filename pattern. -/
def jpegExt : List Char := ['j', 'p', 'e', 'g']

/-- Decimal rendering of a natural number, as produced by Python's
`"{}".format(n)`: most significant digit first, no leading zeros. -/
def natChars (n : Nat) : List Char :=
  if _ : n < 10 then [Nat.digitChar n]
  else natChars (n / 10) ++ [Nat.digitChar (n % 10)]
  termination_by n
  decreasing_by exact Nat.div_lt_self (by omega) (by omega)

/-- Embedding of the regex match `^(\d+)\.<extn>$` used by
`_get_next_usable_integer_index`: a non-empty digit prefix followed by a
dot and the extension; on a match, the integer value of the digit group.
The extension is treated as literal text (the source interpolates
`"jpeg"`, which has no regex metacharacters; `\d` is ASCII for a Python 2
`str` pattern). -/
def parseIntIndex (extn : List Char) (name : List Char) : Option Nat :=
  let ds := name.takeWhile Char.isDigit
  let rest := name.dropWhile Char.isDigit
  if ds.isEmpty then none
  else if rest = '.' :: extn then some (digitsVal ds) else none

/-- The fold of `_get_next_usable_integer_index`'s loop:

    max_num = -1
    for name in os.listdir(dirname):
        m = pat.match(name)
        if m is not None:
            max_num = max(int(m.groups()[0]), max_num)

starting from accumulator `m0`. -/
def maxIndexFold (extn : List Char) (names : List (List Char)) (m0 : Int) : Int :=
  names.foldl (fun max_num name =>
    match parseIntIndex extn name with
    | some v => max (v : Int) max_num
    | none => max_num) m0

/-- Embedding of `_get_next_usable_integer_index(dirname, extn)`: the
maximum integer index among the directory entries matching
`^(\d+)\.<extn>$` (or `-1` when none match), plus one.  The directory is
modelled by its listing. -/
def get_next_usable_integer_index (names : List (List Char)) (extn : List Char) : Nat :=
  (maxIndexFold extn names (-1) + 1).toNat

/-- Embedding of `DataWriteHelper.write`'s filename assignment:

    filename = "{}.jpeg".format(self._next_idx)
    self._next_idx += 1

The helper's state is its next index; writing the image and appending to
`speeds.txt` are I/O effects on the returned filename and are out of
scope.  Returns the assigned filename and the successor state. -/
def DataWriteHelper.write (next_idx : Nat) : List Char × Nat :=
  (natChars next_idx ++ '.' :: jpegExt, next_idx + 1)

/-- Filenames assigned by `n` successive `write` calls starting at state
`next_idx`. -/
def writeMany : Nat → Nat → List (List Char)
  | _, 0 => []
  | next_idx, n + 1 =>
    (DataWriteHelper.write next_idx).1 :: writeMany (DataWriteHelper.write next_idx).2 n

/-- Unfolding of `natChars` below ten. -/
theorem natChars_lt (n : Nat) (h : n < 10) : natChars n = [Nat.digitChar n] := by
  rw [natChars]
  simp [h]

/-- Unfolding of `natChars` at ten and above. -/
theorem natChars_ge (n : Nat) (h : 10 ≤ n) :
    natChars n = natChars (n / 10) ++ [Nat.digitChar (n % 10)] := by
  rw [natChars]
  simp [Nat.not_lt.mpr h]

/-- Digit characters are digits. -/
theorem digitChar_isDigit (d : Nat) (h : d < 10) : (Nat.digitChar d).isDigit = true := by
  interval_cases d <;> decide

/-- Value of a digit character. -/
theorem digitChar_toNat (d : Nat) (h : d < 10) : (Nat.digitChar d).toNat - 48 = d := by
  interval_cases d <;> decide

/-- A decimal rendering is never empty. -/
theorem natChars_ne_nil (n : Nat) : natChars n ≠ [] := by
  by_cases h : n < 10
  · rw [natChars_lt n h]
    simp
  · rw [natChars_ge n (Nat.not_lt.mp h)]
    simp

/-- A decimal rendering consists of digit characters. -/
theorem natChars_all_digits (n : Nat) : ∀ c ∈ natChars n, c.isDigit = true := by
  induction n using Nat.strong_induction_on with
  | _ n ih =>
    by_cases h : n < 10
    · rw [natChars_lt n h]
      intro c hc
      rw [List.mem_singleton.mp hc]
      exact digitChar_isDigit n h
    · rw [natChars_ge n (Nat.not_lt.mp h)]
      intro c hc
      rcases List.mem_append.mp hc with hc' | hc'
      · exact ih (n / 10) (Nat.div_lt_self (by omega) (by omega)) c hc'
      · rw [List.mem_singleton.mp hc']
        exact digitChar_isDigit (n % 10) (Nat.mod_lt _ (by omega))

/-- Appending one digit multiplies the value by ten and adds the digit. -/
theorem digitsVal_append_digit (xs : List Char) (c : Char) :
    digitsVal (xs ++ [c]) = digitsVal xs * 10 + (c.toNat - 48) := by
  simp [digitsVal, List.foldl_append]

/-- The decimal rendering evaluates back to the rendered number. -/
theorem digitsVal_natChars (n : Nat) : digitsVal (natChars n) = n := by
  induction n using Nat.strong_induction_on with
  | _ n ih =>
    by_cases h : n < 10
    · rw [natChars_lt n h]
      have hd := digitChar_toNat n h
      simp only [digitsVal, List.foldl_cons, List.foldl_nil]
      omega
    · have h10 : 10 ≤ n := Nat.not_lt.mp h
      rw [natChars_ge n h10, digitsVal_append_digit,
        ih (n / 10) (Nat.div_lt_self (by omega) (by omega)),
        digitChar_toNat (n % 10) (Nat.mod_lt _ (by omega))]
      omega

/-- `takeWhile`/`dropWhile` split an all-satisfying prefix followed by a
failing element exactly at that element. -/
theorem takeWhile_append_not (p : Char → Bool) :
    ∀ (xs : List Char) (y : Char) (ys : List Char),
      (∀ c ∈ xs, p c = true) → p y = false →
      (xs ++ y :: ys).takeWhile p = xs ∧ (xs ++ y :: ys).dropWhile p = y :: ys := by
  intro xs
  induction xs with
  | nil =>
    intro y ys _ hy
    simp [List.takeWhile_cons, List.dropWhile_cons, hy]
  | cons x xs ih =>
    intro y ys hall hy
    have hx : p x = true := hall x (by simp)
    have hxs : ∀ c ∈ xs, p c = true := fun c hc => hall c (by simp [hc])
    obtain ⟨h1, h2⟩ := ih y ys hxs hy
    simp [List.takeWhile_cons, List.dropWhile_cons, hx, h1, h2]

/-- A filename generated from index `m` parses back to index `m`. -/
theorem parseIntIndex_natChars (extn : List Char) (m : Nat) :
    parseIntIndex extn (natChars m ++ '.' :: extn) = some m := by
  obtain ⟨h1, h2⟩ := takeWhile_append_not Char.isDigit (natChars m) '.' extn
    (natChars_all_digits m) (by decide)
  have hne : (natChars m).isEmpty = false := by
    cases hh : natChars m with
    | nil => exact absurd hh (natChars_ne_nil m)
    | cons a l => rfl
  simp [parseIntIndex, h1, h2, hne, digitsVal_natChars]

/-- Unfolding of the index fold on a cons. -/
theorem maxIndexFold_cons (extn name : List Char) (rest : List (List Char)) (m0 : Int) :
    maxIndexFold extn (name :: rest) m0
      = maxIndexFold extn rest
          (match parseIntIndex extn name with
           | some v => max (v : Int) m0
           | none => m0) := rfl

/-- The index fold only grows its accumulator. -/
theorem maxIndexFold_ge_init (extn : List Char) :
    ∀ (names : List (List Char)) (m0 : Int), m0 ≤ maxIndexFold extn names m0 := by
  intro names
  induction names with
  | nil => intro m0; exact le_refl m0
  | cons name rest ih =>
    intro m0
    rw [maxIndexFold_cons]
    cases hp : parseIntIndex extn name with
    | none => exact ih m0
    | some v => exact le_trans (le_max_right _ _) (ih (max (v : Int) m0))

/-- The index fold dominates every matching entry's index. -/
theorem maxIndexFold_ge_elem (extn : List Char) :
    ∀ (names : List (List Char)) (m0 : Int) (name : List Char) (v : Nat),
      name ∈ names → parseIntIndex extn name = some v →
      (v : Int) ≤ maxIndexFold extn names m0 := by
  intro names
  induction names with
  | nil => intro m0 name v h _; exact absurd h (List.not_mem_nil name)
  | cons n0 rest ih =>
    intro m0 name v hmem hp
    rw [maxIndexFold_cons]
    rcases List.mem_cons.mp hmem with rfl | hmem'
    · rw [hp]
      exact le_trans (le_max_left _ _) (maxIndexFold_ge_init extn rest _)
    · cases hp0 : parseIntIndex extn n0 <;> exact ih _ name v hmem' hp

/-- The index fold either keeps its initial value or attains the index of
some matching entry. -/
theorem maxIndexFold_attained (extn : List Char) :
    ∀ (names : List (List Char)) (m0 : Int),
      maxIndexFold extn names m0 = m0
      ∨ ∃ name ∈ names, ∃ v, parseIntIndex extn name = some v
          ∧ maxIndexFold extn names m0 = (v : Int) := by
  intro names
  induction names with
  | nil => intro m0; exact Or.inl rfl
  | cons n0 rest ih =>
    intro m0
    rw [maxIndexFold_cons]
    cases hp : parseIntIndex extn n0 with
    | none =>
      rcases ih m0 with h | ⟨name, hmem, v, hpv, he⟩
      · exact Or.inl h
      · exact Or.inr ⟨name, List.mem_cons_of_mem _ hmem, v, hpv, he⟩
    | some v0 =>
      rcases ih (max (v0 : Int) m0) with h | ⟨name, hmem, v, hpv, he⟩
      · rcases le_total (v0 : Int) m0 with hle | hle
        · exact Or.inl (h.trans (max_eq_right hle))
        · exact Or.inr ⟨n0, List.mem_cons_self _ _, v0, hp, h.trans (max_eq_left hle)⟩
      · exact Or.inr ⟨name, List.mem_cons_of_mem _ hmem, v, hpv, he⟩

/-- The index fold ignores entries that do not match the pattern. -/
theorem maxIndexFold_skip (extn : List Char) :
    ∀ (L1 : List (List Char)) (name : List Char) (L2 : List (List Char)) (m0 : Int),
      parseIntIndex extn name = none →
      maxIndexFold extn (L1 ++ name :: L2) m0 = maxIndexFold extn (L1 ++ L2) m0 := by
  intro L1
  induction L1 with
  | nil =>
    intro name L2 m0 hp
    simp only [List.nil_append, maxIndexFold_cons, hp]
  | cons x rest ih =>
    intro name L2 m0 hp
    rw [List.cons_append, maxIndexFold_cons, List.cons_append, maxIndexFold_cons]
    exact ih name L2 _ hp

/-- The index fold is the identity when no entry matches. -/
theorem maxIndexFold_none (extn : List Char) :
    ∀ (L : List (List Char)) (m0 : Int),
      (∀ name ∈ L, parseIntIndex extn name = none) →
      maxIndexFold extn L m0 = m0 := by
  intro L
  induction L with
  | nil => intro m0 _; rfl
  | cons n0 rest ih =>
    intro m0 hL
    rw [maxIndexFold_cons, hL n0 (List.mem_cons_self _ _)]
    exact ih m0 (fun name h => hL name (List.mem_cons_of_mem _ h))

/-- The `k`-th of `n` writes starting at index `i` is named after index
`i + k`. -/
theorem writeMany_eq (i n : Nat) :
    writeMany i n
      = (List.range n).map (fun k => natChars (i + k) ++ '.' :: jpegExt) := by
  induction n generalizing i with
  | zero => rfl
  | succ n ih =>
    have hfun : ((fun k => natChars (i + k) ++ '.' :: jpegExt) ∘ Nat.succ)
        = (fun k => natChars (i + 1 + k) ++ '.' :: jpegExt) := by
      funext k
      simp only [Function.comp]
      congr 2
      omega
    show (natChars i ++ '.' :: jpegExt) :: writeMany (i + 1) n = _
    rw [List.range_succ_eq_map, List.map_cons, List.map_map, hfun, ih (i + 1)]
    simp

/-- C5: starting the bucket helper on a directory listing `names` computes
its next index as (maximum existing matching index) + 1 — so every
matching entry's index is below it, and it is either 0 or one more than an
attained index; the `k`-th subsequent write is named after index
`next + k` (each write uses the current index and increments it); no
generated filename collides with an existing entry; and with existing
images `0.jpeg`–`4.jpeg` the next index is 5 and the next written image is
named `5.jpeg`. -/
theorem c5_bucket_index_resumption (names : List (List Char)) (n : Nat) :
    (∀ name ∈ names, ∀ v, parseIntIndex jpegExt name = some v →
        v < get_next_usable_integer_index names jpegExt)
    ∧ (get_next_usable_integer_index names jpegExt = 0
        ∨ ∃ name ∈ names, parseIntIndex jpegExt name
            = some (get_next_usable_integer_index names jpegExt - 1))
    ∧ writeMany (get_next_usable_integer_index names jpegExt) n
        = (List.range n).map
            (fun k => natChars (get_next_usable_integer_index names jpegExt + k)
              ++ '.' :: jpegExt)
    ∧ (∀ name ∈ names,
        ∀ f ∈ writeMany (get_next_usable_integer_index names jpegExt) n, f ≠ name)
    ∧ get_next_usable_integer_index
        ["0.jpeg".data, "1.jpeg".data, "2.jpeg".data, "3.jpeg".data, "4.jpeg".data]
        jpegExt = 5
    ∧ writeMany 5 1 = ["5.jpeg".data] := by
  have ha : ∀ name ∈ names, ∀ v, parseIntIndex jpegExt name = some v →
      v < get_next_usable_integer_index names jpegExt := by
    intro name hname v hp
    have h1 := maxIndexFold_ge_elem jpegExt names (-1) name v hname hp
    simp only [get_next_usable_integer_index]
    omega
  refine ⟨ha, ?_, writeMany_eq _ n, ?_, by decide, ?_⟩
  · rcases maxIndexFold_attained jpegExt names (-1) with h | ⟨name, hmem, v, hpv, he⟩
    · left
      simp only [get_next_usable_integer_index, h]
      decide
    · right
      refine ⟨name, hmem, ?_⟩
      rw [hpv]
      congr 1
      simp only [get_next_usable_integer_index, he]
      omega
  · intro name hname f hf heq
    rw [writeMany_eq] at hf
    obtain ⟨k, hk, rfl⟩ := List.mem_map.mp hf
    have hp : parseIntIndex jpegExt
        (natChars (get_next_usable_integer_index names jpegExt + k) ++ '.' :: jpegExt)
        = some (get_next_usable_integer_index names jpegExt + k) :=
      parseIntIndex_natChars _ _
    rw [heq] at hp
    have hlt := ha name hname _ hp
    omega
  · have h5 : natChars 5 = ['5'] := by
      rw [natChars_lt 5 (by norm_num)]
      decide
    show (natChars 5 ++ '.' :: jpegExt) :: ([] : List (List Char)) = ["5.jpeg".data]
    rw [h5]
    decide

/-- Witness for C5: the generated `5.jpeg` differs from the existing
`4.jpeg`, by the no-overwrite part of the theorem at the concrete
five-image listing. -/
theorem c5_bucket_index_resumption_witness : "5.jpeg".data ≠ "4.jpeg".data := by
  have h := c5_bucket_index_resumption
    ["0.jpeg".data, "1.jpeg".data, "2.jpeg".data, "3.jpeg".data, "4.jpeg".data] 1
  refine h.2.2.2.1 "4.jpeg".data (by decide) "5.jpeg".data ?_
  rw [h.2.2.2.2.1, h.2.2.2.2.2]
  exact List.mem_singleton.mpr rfl

/-- C10: computing the next usable index ignores every directory entry not
matching `<digits>.jpeg`; it is 0 when no entry matches, and in particular
0 on an empty (fresh) bucket directory, so numbering starts at `0.jpeg`. -/
theorem c10_next_index_ignores_nonmatching :
    (∀ (L1 L2 : List (List Char)) (name : List Char),
        parseIntIndex jpegExt name = none →
        get_next_usable_integer_index (L1 ++ name :: L2) jpegExt
          = get_next_usable_integer_index (L1 ++ L2) jpegExt)
    ∧ (∀ (L : List (List Char)), (∀ name ∈ L, parseIntIndex jpegExt name = none) →
        get_next_usable_integer_index L jpegExt = 0)
    ∧ get_next_usable_integer_index [] jpegExt = 0 := by
  refine ⟨?_, ?_, by decide⟩
  · intro L1 L2 name hp
    simp only [get_next_usable_integer_index, maxIndexFold_skip jpegExt L1 name L2 (-1) hp]
  · intro L hL
    simp only [get_next_usable_integer_index, maxIndexFold_none jpegExt L (-1) hL]
    decide

/-- Witness for C10 at a listing with a single non-matching entry. -/
theorem c10_next_index_ignores_nonmatching_witness :
    get_next_usable_integer_index ["readme.txt".data] jpegExt = 0 :=
  c10_next_index_ignores_nonmatching.2.1 ["readme.txt".data] (by decide)

/-- Boundary behaviour of the reconciler: as long as the command stream
holds a trailing command whose tick is strictly beyond every frame tick,
that command is never consumed, the command stream never runs dry, and the
merge emits exactly one sample per frame.  (Frame loss — claim C2's
failing case — happens only when the command stream is exhausted first.) -/
theorem cmd_frame_iter_length_of_late_cmd {F C S : Type} (T : Int) (c : C) (l r : S) :
    ∀ (frames : List (Int × F)) (cs : List (Int × C × S × S)),
      (∀ p ∈ frames, p.1 < T) →
      (cmd_frame_iter frames (cs ++ [(T, c, l, r)])).length = frames.length := by
  suffices h : ∀ (N : Nat) (frames : List (Int × F)) (cs : List (Int × C × S × S)),
      frames.length + cs.length ≤ N → (∀ p ∈ frames, p.1 < T) →
      (cmd_frame_iter frames (cs ++ [(T, c, l, r)])).length = frames.length from
    fun frames cs hf => h (frames.length + cs.length) frames cs (le_refl _) hf
  intro N
  induction N with
  | zero =>
    intro frames cs hlen _
    cases frames with
    | nil => rw [cmd_frame_iter_nil_frames]; rfl
    | cons f fs => simp at hlen
  | succ N ih =>
    intro frames cs hlen hf
    cases frames with
    | nil => rw [cmd_frame_iter_nil_frames]; rfl
    | cons f fs =>
      obtain ⟨ft, fr⟩ := f
      have hft : ft < T := hf (ft, fr) (by simp)
      cases cs with
      | nil =>
        rw [List.nil_append, cmd_frame_iter_ahead _ _ _ _ _ _ _ _ hft]
        simp only [List.length_cons]
        have hrec := ih fs []
          (by simp only [List.length_cons, List.length_nil] at hlen ⊢; omega)
          (fun p hp => hf p (by simp [hp]))
        rw [List.nil_append] at hrec
        rw [hrec]
      | cons c0 cs' =>
        obtain ⟨ct0, cc0, l0, r0⟩ := c0
        rcases lt_trichotomy ct0 ft with h | h | h
        · rw [List.cons_append, cmd_frame_iter_drop _ _ _ _ _ _ _ _ h]
          exact ih ((ft, fr) :: fs) cs'
            (by simp only [List.length_cons] at hlen ⊢; omega) hf
        · rw [List.cons_append, cmd_frame_iter_match _ _ _ _ _ _ _ _ h]
          simp only [List.length_cons]
          rw [ih fs cs' (by simp only [List.length_cons] at hlen ⊢; omega)
            (fun p hp => hf p (by simp [hp]))]
        · rw [List.cons_append, cmd_frame_iter_ahead _ _ _ _ _ _ _ _ h]
          simp only [List.length_cons]
          rw [show (ct0, cc0, l0, r0) :: (cs' ++ [(T, c, l, r)])
              = ((ct0, cc0, l0, r0) :: cs') ++ [(T, c, l, r)] from rfl]
          rw [ih fs ((ct0, cc0, l0, r0) :: cs')
            (by simp only [List.length_cons] at hlen ⊢; omega)
            (fun p hp => hf p (by simp [hp]))]

/-- All-digit parse of a digit string (`none` when empty or not all
digits). -/
def natOfDigits (ds : List Char) : Option Nat :=
  if ds.isEmpty then none
  else if ds.all Char.isDigit then some (digitsVal ds) else none

/-- Embedding of Python 2 `int(s)` for a string argument: optional
surrounding whitespace, an optional sign, then one or more ASCII digits;
anything else raises `ValueError`, modelled as `none`. -/
def int_of_pystr (s : List Char) : Option Int :=
  match pyStrip s with
  | '+' :: ds => (natOfDigits ds).map (fun n => (n : Int))
  | '-' :: ds => (natOfDigits ds).map (fun n => -(n : Int))
  | ds => (natOfDigits ds).map (fun n => (n : Int))

/-- Embedding of the `--frame_size` parsing in the `__main__` block:

    frame_w, frame_h = map(int, args.frame_size.split("x"))

Any failure — not exactly two `x`-separated fields, or a field that does
not parse as an int — is caught by the surrounding `except` clause. -/
def parse_frame_size (s : List Char) : Option (Int × Int) :=
  match splitOnSep 'x' s with
  | [a, b] =>
    match int_of_pystr a, int_of_pystr b with
    | some m, some n => some (m, n)
    | _, _ => none
  | _ => none

/-- Return value of `main(input_dir, output_dir, ...)` over an abstract
filesystem state: whether the input path exists and is a directory, and
whether the output path exists and is a directory.

    if not os.path.exists(input_dir) or not os.path.isdir(input_dir): return 1
    if os.path.exists(output_dir) and not os.path.isdir(output_dir): return 1
    elif not os.path.exists(output_dir): os.makedirs(output_dir)
    ...
    return 0

The directory walk and per-session processing contribute no other return
value; `os.makedirs` is an effect without influence on the result. -/
def main_result (input_exists input_isdir output_exists output_isdir : Bool) : Nat :=
  if !input_exists || !input_isdir then 1
  else if output_exists && !output_isdir then 1
  else 0

/-- Exit code of the program's `__main__` block: `--frame_size` is parsed
first and any parse failure exits with 1; otherwise the process exits with
`main`'s return value. -/
def program_exit (frame_size : List Char)
    (input_exists input_isdir output_exists output_isdir : Bool) : Nat :=
  match parse_frame_size frame_size with
  | none => 1
  | some _ => main_result input_exists input_isdir output_exists output_isdir

/-- C8: the exit code is always 0 or 1; it is 1 exactly when `--frame_size`
fails to parse as `<int>x<int>`, or the input directory is missing or not
a directory, or the output path exists but is not a directory; and it is 0
exactly on success.  `"100x100"` parses as a frame size, `"100"` does
not. -/
theorem c8_exit_codes (fs : List Char) (ie iid oe od : Bool) :
    (program_exit fs ie iid oe od = 0 ∨ program_exit fs ie iid oe od = 1)
    ∧ (program_exit fs ie iid oe od = 1
        ↔ (parse_frame_size fs = none ∨ ie = false ∨ iid = false
            ∨ (oe = true ∧ od = false)))
    ∧ (program_exit fs ie iid oe od = 0
        ↔ ((∃ wh, parse_frame_size fs = some wh) ∧ ie = true ∧ iid = true
            ∧ (oe = true → od = true)))
    ∧ parse_frame_size ("100x100".data) = some (100, 100)
    ∧ parse_frame_size ("100".data) = none := by
  refine ⟨?_, ?_, ?_, by decide, by decide⟩ <;>
    cases hp : parse_frame_size fs <;>
      cases ie <;> cases iid <;> cases oe <;> cases od <;>
        simp [program_exit, main_result, hp]

/-- Witness for C8: a parsable frame size and a well-formed filesystem
state exit with code 0. -/
theorem c8_exit_codes_witness :
    program_exit ("100x100".data) true true true true = 0 :=
  ((c8_exit_codes ("100x100".data) true true true true).2.2.1).mpr
    ⟨⟨(100, 100), (c8_exit_codes ("100x100".data) true true true true).2.2.2.1⟩,
      rfl, rfl, fun _ => rfl⟩

end Aveta
